import Mathlib

/-
  Shallow embedding of the GoBard per-guild audio playback engine,
  translated from the Go sources:
    internal/player/track.go   (Track, Queue and its operations)
    internal/player (player.go, unnamed part)  (GuildPlayer: Play, Stop, Seek)
    internal/cache (cache.go, unnamed part)    (Cache: Set, GetOrCreate, evict, Clear)
    internal/youtube/youtube.go                (extractBestAudioURL)
    internal/bot/commands.go                   (playLoop retry branch, handleShuffle)

  Go machine integers: queue indices are Go `int` and may be negative
  (CurrentIndex is -1 when idle), so they are embedded as `Int`.
  File sizes (`int64`, always produced by `os.Stat` and hence non-negative
  in every reachable state) and timestamps are embedded as `Nat`.
  Overflow is not reachable for any quantity involved, so no modular
  reduction is applied.
-/

namespace GoBard


/-- Track mirrors the Go struct `player.Track` (fields not read by any
modelled operation are kept for fidelity of the data model). `Duration`
is `time.Duration`, i.e. an `int64` nanosecond count. -/
structure Track where
  ID : String
  Title : String
  URL : String
  Duration : Int
  IsLive : Bool
  LocalPath : String
  StreamURL : String
  deriving Repr, DecidableEq, Inhabited

/-- Queue mirrors the Go struct `player.Queue` (the RWMutex only guards
concurrent access and has no sequential meaning). -/
structure Queue where
  Tracks : List Track
  CurrentIndex : Int
  Loop : Bool
  deriving Repr, DecidableEq

/-- `player.NewQueue`. -/
def NewQueue : Queue :=
  { Tracks := [], CurrentIndex := -1, Loop := false }

/-- `Queue.Add`: appends a track. -/
def Queue.Add (q : Queue) (track : Track) : Queue :=
  { q with Tracks := q.Tracks ++ [track] }

/-- `Queue.Next`: returns the track the Go method returns together with
the updated queue state. -/
def Queue.Next (q : Queue) : Option Track × Queue :=
  if q.Tracks.length = 0 then
    (none, { q with CurrentIndex := -1 })
  else if q.Loop = true ∧ 0 ≤ q.CurrentIndex ∧ q.CurrentIndex < q.Tracks.length then
    (q.Tracks.get? q.CurrentIndex.toNat, q)
  else
    let ci := q.CurrentIndex + 1
    if (q.Tracks.length : Int) ≤ ci then
      (none, { q with CurrentIndex := -1 })
    else
      (q.Tracks.get? ci.toNat, { q with CurrentIndex := ci })

/-- `Queue.Current`. -/
def Queue.Current (q : Queue) : Option Track :=
  if q.CurrentIndex < 0 ∨ (q.Tracks.length : Int) ≤ q.CurrentIndex then none
  else q.Tracks.get? q.CurrentIndex.toNat

/-- `Queue.Clear`: removes all tracks except the current one. -/
def Queue.Clear (q : Queue) : Queue :=
  if h : 0 ≤ q.CurrentIndex ∧ q.CurrentIndex < (q.Tracks.length : Int) then
    { q with
      Tracks := [q.Tracks.get ⟨q.CurrentIndex.toNat, by omega⟩]
      CurrentIndex := 0 }
  else
    { q with Tracks := [], CurrentIndex := -1 }

/-- `Queue.ClearAll`. -/
def Queue.ClearAll (q : Queue) : Queue :=
  { q with Tracks := [], CurrentIndex := -1 }

/-- `Queue.Remove`: returns the Go method's boolean result and the updated
queue. `append(q.Tracks[:index], q.Tracks[index+1:]...)` is `eraseIdx`. -/
def Queue.Remove (q : Queue) (index : Int) : Bool × Queue :=
  if index < 0 ∨ (q.Tracks.length : Int) ≤ index then
    (false, q)
  else
    let tracks := q.Tracks.eraseIdx index.toNat
    let ci := if index ≤ q.CurrentIndex then q.CurrentIndex - 1 else q.CurrentIndex
    (true, { q with Tracks := tracks, CurrentIndex := ci })

/-- `Queue.Move`: removal is `append(tracks[:from], tracks[from+1:]...)`
(`eraseIdx`), insertion is `append(tracks[:to], append([]*Track{track},
tracks[to:]...)...)` (`take to ++ track :: drop to`). -/
def Queue.Move (q : Queue) (fromIdx toIdx : Int) : Bool × Queue :=
  if h : fromIdx < 0 ∨ (q.Tracks.length : Int) ≤ fromIdx ∨
      toIdx < 0 ∨ (q.Tracks.length : Int) ≤ toIdx then
    (false, q)
  else
    let track := q.Tracks.get ⟨fromIdx.toNat, by omega⟩
    let removed := q.Tracks.eraseIdx fromIdx.toNat
    let tracks := removed.take toIdx.toNat ++ track :: removed.drop toIdx.toNat
    let ci :=
      if q.CurrentIndex = fromIdx then toIdx
      else if fromIdx < q.CurrentIndex ∧ q.CurrentIndex ≤ toIdx then q.CurrentIndex - 1
      else if q.CurrentIndex < fromIdx ∧ toIdx ≤ q.CurrentIndex then q.CurrentIndex + 1
      else q.CurrentIndex
    (true, { q with Tracks := tracks, CurrentIndex := ci })

/-- `Queue.IsEmpty`. -/
def Queue.IsEmpty (q : Queue) : Bool :=
  q.Tracks.length = 0

/-- `Queue.Length`. -/
def Queue.Length (q : Queue) : Int :=
  q.Tracks.length

/-- `Queue.Peek`: next track without advancing. -/
def Queue.Peek (q : Queue) : Option Track :=
  if q.Tracks.length = 0 then none
  else
    let nextIndex := q.CurrentIndex + 1
    if (q.Tracks.length : Int) ≤ nextIndex then none
    else q.Tracks.get? nextIndex.toNat

/-! Concrete tracks used by witnesses and counterexamples. -/

def trackA : Track :=
  { ID := "a", Title := "A", URL := "ua", Duration := 30, IsLive := false,
    LocalPath := "", StreamURL := "" }

def trackB : Track :=
  { ID := "b", Title := "B", URL := "ub", Duration := 40, IsLive := false,
    LocalPath := "", StreamURL := "" }

def trackC : Track :=
  { ID := "c", Title := "C", URL := "uc", Duration := 50, IsLive := false,
    LocalPath := "", StreamURL := "" }

/-!
  Shuffle (`internal/bot/commands.go`, `handleShuffle`).
  `rand.Shuffle(n, swap)` runs `for i := n-1; i > 0; i-- { swap(i, rand.Intn(i+1)) }`;
  the random draws are modelled by an oracle `r`, with `r i % (i + 1)`
  standing for `rand.Intn(i+1)` (always in `[0, i]`).
-/

/-- The swap closure passed to `rand.Shuffle`
(`toShuffle[i], toShuffle[j] = toShuffle[j], toShuffle[i]`); the indices
are always in range, so the `getD` defaults are never hit. -/
def listSwap (l : List Track) (i j : Nat) : List Track :=
  (l.set i (l.getD j default)).set j (l.getD i default)

/-- The countdown loop inside `rand.Shuffle`. -/
def fyAux (r : Nat → Nat) : Nat → List Track → List Track
  | 0, l => l
  | i + 1, l => fyAux r i (listSwap l (i + 1) (r (i + 1) % (i + 1 + 1)))

/-- `rand.Shuffle(len(l), swap)` on a list. -/
def shuffleGo (r : Nat → Nat) (l : List Track) : List Track :=
  fyAux r (l.length - 1) l

/-- `Bot.handleShuffle`: rejects queues of length ≤ 1, otherwise shuffles
the tracks after the cursor in place (all tracks when the cursor is
negative). -/
def handleShuffle (r : Nat → Nat) (q : Queue) : Except String Queue :=
  if q.Tracks.length ≤ 1 then Except.error "not enough tracks to shuffle"
  else if 0 ≤ q.CurrentIndex then
    let tracks := q.Tracks.take (q.CurrentIndex.toNat + 1) ++
      shuffleGo r (q.Tracks.drop (q.CurrentIndex.toNat + 1))
    Except.ok { q with Tracks := tracks }
  else
    Except.ok { q with Tracks := shuffleGo r q.Tracks }

/-!
  GuildPlayer (`internal/player`, player.go).
  `VoiceConnection` is a nullable pointer, modelled as a Bool presence
  flag; channels and the encoder handle carry no sequential state that
  the claims need beyond what is modelled below.
-/

structure GuildPlayer where
  hasVoiceConnection : Bool
  Playing : Bool
  Paused : Bool
  CurrentPosition : Int
  Volume : Int
  Queue : Queue
  deriving Repr, DecidableEq

/-- `GuildPlayer.Stop`: clears the playback flags and the position (the
stop signal and encoder cleanup have no effect on the modelled state). -/
def GuildPlayer.Stop (p : GuildPlayer) : GuildPlayer :=
  { p with Playing := false, Paused := false, CurrentPosition := 0 }

/-- `GuildPlayer.Play`: returns (updated player, error, track handed to
the spawned `playTrack` goroutine). The encoder is NOT constructed here;
`playTrack` runs asynchronously after `Play` has already returned. -/
def GuildPlayer.Play (p : GuildPlayer) : GuildPlayer × Option String × Option Track :=
  if p.hasVoiceConnection = false then
    (p, some "not connected to voice channel", none)
  else if p.Paused = true then
    ({ p with Paused := false, Playing := true }, none, none)
  else
    match p.Queue.Current with
    | some track => ({ p with Playing := true, Paused := false }, none, some track)
    | none =>
      match p.Queue.Next with
      | (some track, q2) =>
        ({ p with Queue := q2, Playing := true, Paused := false }, none, some track)
      | (none, q2) => ({ p with Queue := q2 }, some "no tracks in queue", none)

/-- Oracle for the environment-dependent outcome of encoder construction
(`NewCustomEncoder` for cached files, `NewStreamingEncoder` for URLs). -/
structure EncoderEnv where
  customEncoderOk : String → Bool
  streamingEncoderOk : String → Bool

/-- The encoder-construction phase of `GuildPlayer.playTrack` (the
goroutine spawned by `Play`): result is (state after the phase, encoder
construction failed?, completion signalled on doneChan?). On encoder
failure the goroutine returns early, clearing only `Playing` and never
signalling `doneChan`; on success it eventually signals completion. -/
def playTrackEncoderPhase (env : EncoderEnv) (p : GuildPlayer) (track : Track) :
    GuildPlayer × Bool × Bool :=
  if p.hasVoiceConnection = false then (p, false, false)
  else
    let ok := if track.LocalPath ≠ "" then env.customEncoderOk track.LocalPath
      else env.streamingEncoderOk track.URL
    if ok = false then ({ p with Playing := false }, true, false)
    else (p, false, true)

/-- The retry branch of `Bot.playLoop` (commands.go): it is entered iff
the error returned by `p.Play()` is non-nil. -/
def playLoopRetryTaken (playResult : Option String) : Bool :=
  playResult.isSome

/-- `GuildPlayer.Seek`: stops playback, validates the position against
the current track, then restarts from the new position. -/
def GuildPlayer.Seek (p : GuildPlayer) (position : Int) :
    GuildPlayer × Option String × Option Track :=
  let p1 := p.Stop
  match p1.Queue.Current with
  | none => (p1, some "no track currently playing", none)
  | some track =>
    if position < 0 ∨ (track.IsLive = false ∧ track.Duration < position) then
      (p1, some "invalid seek position", none)
    else
      ({ p1 with CurrentPosition := position, Playing := true, Paused := false },
        none, some track)

/-- `Bot.handleRemove`: converts the 1-based user position and delegates
to `Queue.Remove`; it does not touch playback state. -/
def handleRemove (p : GuildPlayer) (positionOpt : Int) : GuildPlayer × Option String :=
  let position := positionOpt - 1
  match p.Queue.Remove position with
  | (false, q2) => ({ p with Queue := q2 }, some "invalid position")
  | (true, q2) => ({ p with Queue := q2 }, none)

/-! Concrete players used by the playback theorems. -/

def trackF : Track :=
  { ID := "f", Title := "F", URL := "uf", Duration := 30, IsLive := false,
    LocalPath := "", StreamURL := "su" }

def trackLive : Track :=
  { ID := "l", Title := "L", URL := "ul", Duration := 0, IsLive := true,
    LocalPath := "", StreamURL := "" }

def envFail : EncoderEnv :=
  { customEncoderOk := fun _ => false, streamingEncoderOk := fun _ => false }

def playerF : GuildPlayer :=
  { hasVoiceConnection := true, Playing := false, Paused := false,
    CurrentPosition := 0, Volume := 100,
    Queue := { Tracks := [trackF], CurrentIndex := 0, Loop := false } }

def playerLive : GuildPlayer :=
  { hasVoiceConnection := true, Playing := true, Paused := false,
    CurrentPosition := 0, Volume := 100,
    Queue := { Tracks := [trackLive], CurrentIndex := 0, Loop := false } }

def playerAB : GuildPlayer :=
  { hasVoiceConnection := true, Playing := true, Paused := false,
    CurrentPosition := 0, Volume := 100,
    Queue := { Tracks := [trackA, trackB], CurrentIndex := 0, Loop := false } }

/-!
  Cache (`internal/cache`, cache.go).
  File sizes come from `os.Stat` and are non-negative, so they are
  embedded as `Nat`; timestamps (`time.Time`) as `Nat`. The cache
  directory prefix is dropped from paths (`Path := key`). Files on disk
  exist exactly for the registered entries in this model (eviction and
  `Clear` delete the file together with the entry), so `Get`'s
  `os.Stat` existence check never fails and is not modelled. The Go map
  `entries` is modelled as an association list; map assignment replaces
  the key's binding. `evict` sorts a temporary slice ascending by
  `LastAccessed` (the Go double-loop swap sort, fed from a map whose
  iteration order is unspecified); an insertion sort by the same key is
  used here.
-/

structure CacheEntry where
  Path : String
  Size : Nat
  LastAccessed : Nat
  URL : String
  deriving Repr, DecidableEq

structure Cache where
  maxSize : Nat
  entries : List (String × CacheEntry)
  deriving Repr, DecidableEq

/-- `NewCache` on a fresh directory: `loadEntries` finds nothing. -/
def NewCache (maxSize : Nat) : Cache :=
  { maxSize := maxSize, entries := [] }

/-- Go map assignment `c.entries[key] = e`. -/
def mapSet (entries : List (String × CacheEntry)) (key : String) (e : CacheEntry) :
    List (String × CacheEntry) :=
  entries.filter (fun kv => kv.1 != key) ++ [(key, e)]

/-- Total size of a set of entries. -/
def entriesSize (entries : List (String × CacheEntry)) : Nat :=
  (entries.map (fun kv => kv.2.Size)).sum

/-- `Cache.getCurrentSize`. -/
def Cache.getCurrentSize (c : Cache) : Nat :=
  entriesSize c.entries

/-- One insertion step of the ascending sort by `LastAccessed`. -/
def insertByLastAccessed (e : String × CacheEntry) :
    List (String × CacheEntry) → List (String × CacheEntry)
  | [] => [e]
  | f :: rest =>
    if e.2.LastAccessed < f.2.LastAccessed then e :: f :: rest
    else f :: insertByLastAccessed e rest

/-- Ascending sort by `LastAccessed` (oldest first). -/
def sortByLastAccessed : List (String × CacheEntry) → List (String × CacheEntry)
  | [] => []
  | e :: rest => insertByLastAccessed e (sortByLastAccessed rest)

/-- The eviction loop: walks the sorted entries, deleting file and entry
until `freedSize >= targetSize` (checked at the top of each iteration). -/
def evictLoop (targetSize : Nat) (freedSize : Nat) :
    List (String × CacheEntry) → List (String × CacheEntry)
  | [] => []
  | e :: rest =>
    if targetSize ≤ freedSize then e :: rest
    else evictLoop targetSize (freedSize + e.2.Size) rest

/-- `Cache.evict`. -/
def Cache.evict (c : Cache) (targetSize : Nat) : Cache :=
  { c with entries := evictLoop targetSize 0 (sortByLastAccessed c.entries) }

/-- `Cache.Get`: on hit, touches `LastAccessed` and returns the path. -/
def Cache.Get (c : Cache) (key : String) (now : Nat) : Option String × Cache :=
  match c.entries.find? (fun kv => kv.1 == key) with
  | none => (none, c)
  | some kv =>
    (some kv.2.Path,
      { c with entries := mapSet c.entries key { kv.2 with LastAccessed := now } })

/-- `Cache.Set`: evicts if necessary, copies the file (`copyOk` is the
outcome of `copyFile`), then registers the entry. -/
def Cache.Set (c : Cache) (key : String) (size : Nat) (now : Nat) (copyOk : Bool) :
    Cache × Option String :=
  let currentSize := c.getCurrentSize
  let c1 := if c.maxSize < currentSize + size then
      c.evict (currentSize + size - c.maxSize)
    else c
  if copyOk = false then (c1, some "failed to copy file to cache")
  else
    let e : CacheEntry := { Path := key, Size := size, LastAccessed := now, URL := "" }
    ({ c1 with entries := mapSet c1.entries key e }, none)

/-- `Cache.GetOrCreate`: hit returns the cached path; otherwise the
producer runs without the lock (`createOk` is its outcome and `size` the
size `os.Stat` reports for the produced file), the double-check looks
for a racing winner (never present in this sequential model), then the
cache evicts if necessary and registers the entry. -/
def Cache.GetOrCreate (c : Cache) (key : String) (size : Nat) (now : Nat) (createOk : Bool) :
    Cache × Option String :=
  match c.Get key now with
  | (some _, c1) => (c1, none)
  | (none, c1) =>
    if createOk = false then (c1, some "failed to create cached file")
    else if c1.entries.any (fun kv => kv.1 == key) then (c1, none)
    else
      let currentSize := c1.getCurrentSize
      let c2 := if c1.maxSize < currentSize + size then
          c1.evict (currentSize + size - c1.maxSize)
        else c1
      let e : CacheEntry := { Path := key, Size := size, LastAccessed := now, URL := "" }
      ({ c2 with entries := mapSet c2.entries key e }, none)

/-- `Cache.Clear`. -/
def Cache.Clear (c : Cache) : Cache :=
  { c with entries := [] }

/-- One mutating cache call, with its environment-dependent inputs. -/
inductive CacheOp where
  | set (key : String) (size : Nat) (now : Nat) (copyOk : Bool)
  | getOrCreate (key : String) (size : Nat) (now : Nat) (createOk : Bool)
  | clear
  deriving Repr, DecidableEq

/-- The size of the file an operation may register. -/
def CacheOp.sizeBound : CacheOp → Nat
  | .set _ size _ _ => size
  | .getOrCreate _ size _ _ => size
  | .clear => 0

def Cache.runOp (c : Cache) : CacheOp → Cache
  | .set key size now copyOk => (c.Set key size now copyOk).1
  | .getOrCreate key size now createOk => (c.GetOrCreate key size now createOk).1
  | .clear => c.Clear

def Cache.runOps (c : Cache) (ops : List CacheOp) : Cache :=
  ops.foldl Cache.runOp c

/-!
  YouTube format selection (`internal/youtube/youtube.go`,
  `extractBestAudioURL`). `abr` is a float64 bitrate parsed from JSON;
  the selection only compares bitrates, so it is embedded as ℚ (NaN
  never arises from the JSON decoder for a number field).
-/

structure Format where
  FormatID : String
  URL : String
  Ext : String
  AudioCodec : String
  VideoCodec : String
  ABR : ℚ
  deriving Repr, DecidableEq

/-- The body of the first loop of `extractBestAudioURL`, as a fold step
over the accumulator `(bestURL, bestBitrate)`. -/
def bestAudioFold (acc : String × ℚ) (f : Format) : String × ℚ :=
  if f.AudioCodec = "none" ∨ f.AudioCodec = "" then acc
  else
    let hasVideo := f.VideoCodec ≠ "none" ∧ f.VideoCodec ≠ ""
    if ¬hasVideo ∧ f.ABR > acc.2 ∧ f.URL ≠ "" then (f.URL, f.ABR) else acc

/-- The fallback loop: first format with audio and a non-empty URL, or
the (empty) `bestURL` when none exists. -/
def fallbackAudioURL (formats : List Format) (bestURL : String) : String :=
  match formats.find? (fun f => f.AudioCodec != "none" && f.AudioCodec != "" && f.URL != "") with
  | some f => f.URL
  | none => bestURL

/-- `extractBestAudioURL`. -/
def extractBestAudioURL (formats : List Format) : String :=
  let best := formats.foldl bestAudioFold ("", 0)
  if best.1 = "" then fallbackAudioURL formats best.1
  else best.1

/-- A format that carries audio (`acodec` neither "none" nor empty). -/
abbrev Format.hasAudio (f : Format) : Prop :=
  f.AudioCodec ≠ "none" ∧ f.AudioCodec ≠ ""

/-- Audio-only: no video stream (`vcodec` "none" or empty). -/
abbrev Format.audioOnly (f : Format) : Prop :=
  ¬(f.VideoCodec ≠ "none" ∧ f.VideoCodec ≠ "")

/-- A format the first loop can ever select: audio, audio-only,
non-empty URL, and strictly positive bitrate (the accumulator starts at
0 and only strictly larger bitrates replace it). -/
abbrev Format.audioCandidate (f : Format) : Prop :=
  f.hasAudio ∧ f.audioOnly ∧ f.URL ≠ "" ∧ 0 < f.ABR

/-! Concrete formats used by the counterexample and witness. -/

def fmtVideoAudio : Format :=
  { FormatID := "1", URL := "b", Ext := "mp4", AudioCodec := "aac",
    VideoCodec := "h264", ABR := 128 }

def fmtAudioZero : Format :=
  { FormatID := "2", URL := "a", Ext := "webm", AudioCodec := "opus",
    VideoCodec := "none", ABR := 0 }

def fmtAudioGood : Format :=
  { FormatID := "3", URL := "g", Ext := "webm", AudioCodec := "opus",
    VideoCodec := "none", ABR := 160 }

/-- Claim C3: with loop on and a valid cursor, `Next` returns the current
track and does not change the queue; with loop off it increments the
cursor and returns the new current track; when the incremented cursor
would pass the end of the list (or the list is empty) it returns null and
resets the cursor to -1. -/
theorem Queue_Next_spec (q : Queue) (hcur : -1 ≤ q.CurrentIndex) :
    (q.Loop = true → 0 ≤ q.CurrentIndex → q.CurrentIndex < (q.Tracks.length : Int) →
      q.Next = (q.Current, q)) ∧
    (q.Loop = false → q.CurrentIndex + 1 < (q.Tracks.length : Int) →
      (q.Next).2.CurrentIndex = q.CurrentIndex + 1 ∧
      (q.Next).1 = (q.Next).2.Current ∧
      ((q.Next).1).isSome = true) ∧
    (q.Loop = false → (q.Tracks.length : Int) ≤ q.CurrentIndex + 1 →
      (q.Next).1 = none ∧ (q.Next).2.CurrentIndex = -1) :=
  by
  refine ⟨?_, ?_, ?_⟩
  · intro hl h0 hlen
    have hne : ¬ q.Tracks.length = 0 := by omega
    simp only [Queue.Next, Queue.Current, hne, if_false, hl]
    rw [if_pos ⟨trivial, h0, hlen⟩, if_neg (by omega)]
  · intro hl hlt
    have hne : ¬ q.Tracks.length = 0 := by omega
    simp only [Queue.Next, Queue.Current, hne, if_false, hl]
    rw [if_neg (by simp), if_neg (by omega)]
    refine ⟨rfl, ?_, ?_⟩
    · simp only []
      rw [if_neg (by omega)]
    · have hidx : (q.CurrentIndex + 1).toNat < q.Tracks.length := by omega
      rw [List.get?_eq_getElem?, List.getElem?_eq_getElem hidx]
      rfl
  · intro hl hge
    by_cases hne : q.Tracks.length = 0
    · simp only [Queue.Next, hne, if_pos rfl]
      exact ⟨rfl, rfl⟩
    · simp only [Queue.Next, hne, if_false, hl]
      rw [if_neg (by simp), if_pos (by omega)]
      exact ⟨rfl, rfl⟩

/-- Witness for `Queue_Next_spec` on a concrete two-track queue. -/
theorem Queue_Next_spec_witness :
    (-1 ≤ ({ Tracks := [trackA, trackB], CurrentIndex := 0, Loop := false } : Queue).CurrentIndex) ∧
    ((({ Tracks := [trackA, trackB], CurrentIndex := 0, Loop := false } : Queue).Loop = true →
        0 ≤ ({ Tracks := [trackA, trackB], CurrentIndex := 0, Loop := false } : Queue).CurrentIndex →
        ({ Tracks := [trackA, trackB], CurrentIndex := 0, Loop := false } : Queue).CurrentIndex <
          (({ Tracks := [trackA, trackB], CurrentIndex := 0, Loop := false } : Queue).Tracks.length : Int) →
        ({ Tracks := [trackA, trackB], CurrentIndex := 0, Loop := false } : Queue).Next =
          (({ Tracks := [trackA, trackB], CurrentIndex := 0, Loop := false } : Queue).Current,
            { Tracks := [trackA, trackB], CurrentIndex := 0, Loop := false })) ∧
      (({ Tracks := [trackA, trackB], CurrentIndex := 0, Loop := false } : Queue).Loop = false →
        ({ Tracks := [trackA, trackB], CurrentIndex := 0, Loop := false } : Queue).CurrentIndex + 1 <
          (({ Tracks := [trackA, trackB], CurrentIndex := 0, Loop := false } : Queue).Tracks.length : Int) →
        (({ Tracks := [trackA, trackB], CurrentIndex := 0, Loop := false } : Queue).Next).2.CurrentIndex =
          ({ Tracks := [trackA, trackB], CurrentIndex := 0, Loop := false } : Queue).CurrentIndex + 1 ∧
        (({ Tracks := [trackA, trackB], CurrentIndex := 0, Loop := false } : Queue).Next).1 =
          (({ Tracks := [trackA, trackB], CurrentIndex := 0, Loop := false } : Queue).Next).2.Current ∧
        ((({ Tracks := [trackA, trackB], CurrentIndex := 0, Loop := false } : Queue).Next).1).isSome = true) ∧
      (({ Tracks := [trackA, trackB], CurrentIndex := 0, Loop := false } : Queue).Loop = false →
        (({ Tracks := [trackA, trackB], CurrentIndex := 0, Loop := false } : Queue).Tracks.length : Int) ≤
          ({ Tracks := [trackA, trackB], CurrentIndex := 0, Loop := false } : Queue).CurrentIndex + 1 →
        (({ Tracks := [trackA, trackB], CurrentIndex := 0, Loop := false } : Queue).Next).1 = none ∧
        (({ Tracks := [trackA, trackB], CurrentIndex := 0, Loop := false } : Queue).Next).2.CurrentIndex = -1)) :=
  ⟨by decide, Queue_Next_spec { Tracks := [trackA, trackB], CurrentIndex := 0, Loop := false } (by decide)⟩

/-- Claim C9: clear-upcoming on an idle queue (cursor -1) empties the
track list and keeps the cursor at -1; with a current track it leaves
exactly the one-element list holding the current track, cursor 0. -/
theorem Queue_Clear_spec (q : Queue) :
    (q.CurrentIndex = -1 →
      (q.Clear).Tracks = [] ∧ (q.Clear).CurrentIndex = -1) ∧
    (0 ≤ q.CurrentIndex → q.CurrentIndex < (q.Tracks.length : Int) →
      (q.Clear).Tracks = (q.Current).toList ∧ (q.Clear).CurrentIndex = 0) :=
  by
  constructor
  · intro hidle
    rw [Queue.Clear, dif_neg (by omega)]
    exact ⟨rfl, rfl⟩
  · intro h0 hlt
    rw [Queue.Clear, dif_pos ⟨h0, hlt⟩]
    refine ⟨?_, rfl⟩
    have hidx : q.CurrentIndex.toNat < q.Tracks.length := by omega
    simp only [Queue.Current]
    rw [if_neg (by omega), List.get?_eq_getElem?, List.getElem?_eq_getElem hidx]
    rfl

/-- Witness for `Queue_Clear_spec` on a concrete queue with a current track. -/
theorem Queue_Clear_spec_witness :
    ((({ Tracks := [trackA, trackB], CurrentIndex := 1, Loop := false } : Queue).CurrentIndex = -1 →
      (({ Tracks := [trackA, trackB], CurrentIndex := 1, Loop := false } : Queue).Clear).Tracks = [] ∧
      (({ Tracks := [trackA, trackB], CurrentIndex := 1, Loop := false } : Queue).Clear).CurrentIndex = -1) ∧
    (0 ≤ ({ Tracks := [trackA, trackB], CurrentIndex := 1, Loop := false } : Queue).CurrentIndex →
      ({ Tracks := [trackA, trackB], CurrentIndex := 1, Loop := false } : Queue).CurrentIndex <
        (({ Tracks := [trackA, trackB], CurrentIndex := 1, Loop := false } : Queue).Tracks.length : Int) →
      (({ Tracks := [trackA, trackB], CurrentIndex := 1, Loop := false } : Queue).Clear).Tracks =
        (({ Tracks := [trackA, trackB], CurrentIndex := 1, Loop := false } : Queue).Current).toList ∧
      (({ Tracks := [trackA, trackB], CurrentIndex := 1, Loop := false } : Queue).Clear).CurrentIndex = 0)) :=
  Queue_Clear_spec { Tracks := [trackA, trackB], CurrentIndex := 1, Loop := false }

/-! Helper lemmas about list surgery, shared by the queue theorems. -/

theorem length_take_of_le {α : Type} (l : List α) (t : Nat) (ht : t ≤ l.length) :
    (l.take t).length = t := by
  rw [List.length_take]
  exact inf_eq_left.mpr ht

theorem getElem?_take_append_cons_drop {α : Type} (l : List α) (x : α) (t k : Nat)
    (ht : t ≤ l.length) :
    (l.take t ++ x :: l.drop t)[k]? =
      if k < t then l[k]? else if k = t then some x else l[k - 1]? := by
  have hlt : (l.take t).length = t := length_take_of_le l t ht
  rw [List.getElem?_append]
  by_cases hk : k < t
  · rw [if_pos (show k < (l.take t).length by omega), List.getElem?_take, if_pos hk, if_pos hk]
  · rw [if_neg (show ¬ k < (l.take t).length by omega), if_neg hk]
    by_cases hkt : k = t
    · have h0 : k - (l.take t).length = 0 := by omega
      rw [h0, List.getElem?_cons_zero, if_pos hkt]
    · have h1 : k - (l.take t).length = k - t - 1 + 1 := by omega
      rw [h1, List.getElem?_cons_succ, List.getElem?_drop, if_neg hkt]
      congr 1
      omega

/-- Unfolding equation for `Queue.Move` when both indices are in range. -/
theorem Queue.Move_in_range (q : Queue) (i j : Int) (x : Track)
    (h : ¬(i < 0 ∨ (q.Tracks.length : Int) ≤ i ∨ j < 0 ∨ (q.Tracks.length : Int) ≤ j))
    (hx : q.Tracks.get? i.toNat = some x) :
    q.Move i j =
      (true,
        { q with
          Tracks := (q.Tracks.eraseIdx i.toNat).take j.toNat ++
            x :: (q.Tracks.eraseIdx i.toNat).drop j.toNat
          CurrentIndex :=
            if q.CurrentIndex = i then j
            else if i < q.CurrentIndex ∧ q.CurrentIndex ≤ j then q.CurrentIndex - 1
            else if q.CurrentIndex < i ∧ j ≤ q.CurrentIndex then q.CurrentIndex + 1
            else q.CurrentIndex }) := by
  have hilen : i.toNat < q.Tracks.length := by omega
  have hg : q.Tracks.get ⟨i.toNat, hilen⟩ = x := by
    rw [List.get?_eq_get hilen] at hx
    exact Option.some_inj.mp hx
  rw [Queue.Move, dif_neg h, hg]

/-- Unfolding equation for `Queue.Remove` when the index is in range. -/
theorem Queue.Remove_in_range (q : Queue) (i : Int)
    (h : ¬(i < 0 ∨ (q.Tracks.length : Int) ≤ i)) :
    q.Remove i =
      (true,
        { q with
          Tracks := q.Tracks.eraseIdx i.toNat
          CurrentIndex :=
            if i ≤ q.CurrentIndex then q.CurrentIndex - 1 else q.CurrentIndex }) := by
  rw [Queue.Remove, if_neg h]

/-- A non-null current track forces the cursor into range. -/
theorem Queue.Current_isSome_bounds (q : Queue) (h : (q.Current).isSome = true) :
    0 ≤ q.CurrentIndex ∧ q.CurrentIndex < (q.Tracks.length : Int) := by
  by_cases hc : q.CurrentIndex < 0 ∨ (q.Tracks.length : Int) ≤ q.CurrentIndex
  · rw [Queue.Current, if_pos hc] at h
    simp at h
  · omega

/-- With the cursor in range, `Current` is a plain list lookup. -/
theorem Queue.Current_eq_get? (q : Queue) (h0 : 0 ≤ q.CurrentIndex)
    (h1 : q.CurrentIndex < (q.Tracks.length : Int)) :
    q.Current = q.Tracks.get? q.CurrentIndex.toNat := by
  rw [Queue.Current, if_neg (by omega)]

/-- Claim C4: `Move` with both indices in range and a non-null current
track succeeds and the track that was current before the call is still
current afterwards (the cursor is adjusted to follow it). -/
theorem Queue_Move_preserves_current (q : Queue) (i j : Int)
    (hsome : (q.Current).isSome = true)
    (hi0 : 0 ≤ i) (hilen : i < (q.Tracks.length : Int))
    (hj0 : 0 ≤ j) (hjlen : j < (q.Tracks.length : Int))
    (hij : i ≠ j) :
    (q.Move i j).1 = true ∧ ((q.Move i j).2).Current = q.Current := by
  obtain ⟨h0, hlen⟩ := Queue.Current_isSome_bounds q hsome
  have hnr : ¬(i < 0 ∨ (q.Tracks.length : Int) ≤ i ∨ j < 0 ∨ (q.Tracks.length : Int) ≤ j) := by
    omega
  obtain ⟨x, hx⟩ : ∃ x, q.Tracks.get? i.toNat = some x :=
    ⟨_, List.get?_eq_get (show i.toNat < q.Tracks.length by omega)⟩
  have hx' : q.Tracks[i.toNat]? = some x := by
    rw [← List.get?_eq_getElem?]
    exact hx
  rw [Queue.Move_in_range q i j x hnr hx]
  refine ⟨rfl, ?_⟩
  rw [Queue.Current_eq_get? q h0 hlen]
  have hre : (q.Tracks.eraseIdx i.toNat).length = q.Tracks.length - 1 := by
    rw [List.length_eraseIdx, if_pos (show i.toNat < q.Tracks.length by omega)]
  have htle : j.toNat ≤ (q.Tracks.eraseIdx i.toNat).length := by omega
  have hlen2 : ((q.Tracks.eraseIdx i.toNat).take j.toNat ++
      x :: (q.Tracks.eraseIdx i.toNat).drop j.toNat).length = q.Tracks.length := by
    rw [List.length_append, length_take_of_le _ _ htle, List.length_cons, List.length_drop]
    omega
  simp only [Queue.Current]
  by_cases hA : q.CurrentIndex = i
  · rw [if_pos hA, hlen2, if_neg (by omega)]
    simp only [List.get?_eq_getElem?]
    rw [getElem?_take_append_cons_drop _ _ _ _ htle, if_neg (lt_irrefl _), if_pos rfl]
    have hAC : q.CurrentIndex.toNat = i.toNat := by omega
    rw [hAC, hx']
  · by_cases hB : i < q.CurrentIndex ∧ q.CurrentIndex ≤ j
    · rw [if_neg hA, if_pos hB, hlen2, if_neg (by omega)]
      simp only [List.get?_eq_getElem?]
      rw [getElem?_take_append_cons_drop _ _ _ _ htle,
        if_pos (show (q.CurrentIndex - 1).toNat < j.toNat by omega),
        List.getElem?_eraseIdx,
        if_neg (show ¬ (q.CurrentIndex - 1).toNat < i.toNat by omega)]
      congr 1
      omega
    · by_cases hC : q.CurrentIndex < i ∧ j ≤ q.CurrentIndex
      · rw [if_neg hA, if_neg hB, if_pos hC, hlen2, if_neg (by omega)]
        simp only [List.get?_eq_getElem?]
        rw [getElem?_take_append_cons_drop _ _ _ _ htle,
          if_neg (show ¬ (q.CurrentIndex + 1).toNat < j.toNat by omega),
          if_neg (show ¬ (q.CurrentIndex + 1).toNat = j.toNat by omega),
          List.getElem?_eraseIdx,
          if_pos (show (q.CurrentIndex + 1).toNat - 1 < i.toNat by omega)]
        congr 1
        omega
      · rw [if_neg hA, if_neg hB, if_neg hC, hlen2, if_neg (by omega)]
        simp only [List.get?_eq_getElem?]
        by_cases hD : q.CurrentIndex < i
        · rw [getElem?_take_append_cons_drop _ _ _ _ htle,
            if_pos (show q.CurrentIndex.toNat < j.toNat by omega),
            List.getElem?_eraseIdx,
            if_pos (show q.CurrentIndex.toNat < i.toNat by omega)]
        · rw [getElem?_take_append_cons_drop _ _ _ _ htle,
            if_neg (show ¬ q.CurrentIndex.toNat < j.toNat by omega),
            if_neg (show ¬ q.CurrentIndex.toNat = j.toNat by omega),
            List.getElem?_eraseIdx,
            if_neg (show ¬ q.CurrentIndex.toNat - 1 < i.toNat by omega)]
          congr 1
          omega

/-- Witness for `Queue_Move_preserves_current`: moving track 0 after the
current track on a concrete three-track queue keeps track B current. -/
theorem Queue_Move_preserves_current_witness :
    ((({ Tracks := [trackA, trackB, trackC], CurrentIndex := 1, Loop := false } : Queue).Current).isSome = true) ∧
    ((({ Tracks := [trackA, trackB, trackC], CurrentIndex := 1, Loop := false } : Queue).Move 0 2).1 = true ∧
      ((({ Tracks := [trackA, trackB, trackC], CurrentIndex := 1, Loop := false } : Queue).Move 0 2).2).Current =
        ({ Tracks := [trackA, trackB, trackC], CurrentIndex := 1, Loop := false } : Queue).Current) :=
  ⟨by decide,
    Queue_Move_preserves_current
      { Tracks := [trackA, trackB, trackC], CurrentIndex := 1, Loop := false } 0 2
      (by decide) (by decide) (by decide) (by decide) (by decide) (by decide)⟩

/-- Claim C10: `Remove` with an out-of-range index and `Move` with either
index out of range return false and leave the queue unchanged. -/
theorem Queue_Remove_Move_out_of_range (q : Queue) (i fromIdx toIdx : Int) :
    ((i < 0 ∨ (q.Tracks.length : Int) ≤ i) → q.Remove i = (false, q)) ∧
    ((fromIdx < 0 ∨ (q.Tracks.length : Int) ≤ fromIdx ∨
        toIdx < 0 ∨ (q.Tracks.length : Int) ≤ toIdx) →
      q.Move fromIdx toIdx = (false, q)) :=
  by
  constructor
  · intro h
    rw [Queue.Remove, if_pos h]
  · intro h
    rw [Queue.Move, dif_pos h]

/-- Witness for `Queue_Remove_Move_out_of_range` at concrete out-of-range indices. -/
theorem Queue_Remove_Move_out_of_range_witness :
    (((2 : Int) < 0 ∨ (({ Tracks := [trackA, trackB], CurrentIndex := 0, Loop := false } : Queue).Tracks.length : Int) ≤ 2) →
      ({ Tracks := [trackA, trackB], CurrentIndex := 0, Loop := false } : Queue).Remove 2 =
        (false, { Tracks := [trackA, trackB], CurrentIndex := 0, Loop := false })) ∧
    (((0 : Int) < 0 ∨ (({ Tracks := [trackA, trackB], CurrentIndex := 0, Loop := false } : Queue).Tracks.length : Int) ≤ 0 ∨
        (-1 : Int) < 0 ∨ (({ Tracks := [trackA, trackB], CurrentIndex := 0, Loop := false } : Queue).Tracks.length : Int) ≤ -1) →
      ({ Tracks := [trackA, trackB], CurrentIndex := 0, Loop := false } : Queue).Move 0 (-1) =
        (false, { Tracks := [trackA, trackB], CurrentIndex := 0, Loop := false })) :=
  Queue_Remove_Move_out_of_range { Tracks := [trackA, trackB], CurrentIndex := 0, Loop := false } 2 0 (-1)

/-- Counterexample to claim C7 as stated: on the player with queue
[A, B], A current and playing, the remove command for the current track
(1-based position 1) succeeds and B was the follower, yet afterwards
`Current` is null (the cursor moved to -1), not the follower B — and
playback is not stopped (`Playing` is still true; `handleRemove` never
calls `Stop`). -/
theorem Queue_Remove_at_cursor_counterexample :
    (handleRemove playerAB 1).2 = none ∧
    playerAB.Queue.Tracks.get? 1 = some trackB ∧
    ((handleRemove playerAB 1).1).Queue.Current = none ∧
    ((handleRemove playerAB 1).1).Queue.Current ≠ some trackB ∧
    ((handleRemove playerAB 1).1).Playing = true := by
  decide

/-- Claim C7 (amended): `Remove(i)` with i strictly before the cursor
decrements the cursor so the same track remains current; removing the
track at the cursor leaves the cursor on the preceding position
(cursor - 1), so that the subsequent `Next` with loop off returns the
track that followed the removed one (playback itself is not touched). -/
theorem Queue_Remove_cursor_adjustment (q : Queue) (i : Int)
    (hi0 : 0 ≤ i)
    (h0 : 0 ≤ q.CurrentIndex) (hlen : q.CurrentIndex < (q.Tracks.length : Int)) :
    (i < q.CurrentIndex →
      ((q.Remove i).2).Current = q.Current) ∧
    (i = q.CurrentIndex →
      ((q.Remove i).2).CurrentIndex = q.CurrentIndex - 1 ∧
      (q.Loop = false →
        (((q.Remove i).2).Next).1 = q.Tracks.get? (q.CurrentIndex + 1).toNat)) := by
  constructor
  · intro hlt
    rw [Queue.Remove_in_range q i (by omega)]
    simp only [Queue.Current]
    rw [if_pos (show i ≤ q.CurrentIndex by omega),
      List.length_eraseIdx, if_pos (show i.toNat < q.Tracks.length by omega),
      if_neg (by omega), if_neg (show ¬(q.CurrentIndex < 0 ∨
        (q.Tracks.length : Int) ≤ q.CurrentIndex) by omega)]
    simp only [List.get?_eq_getElem?]
    rw [List.getElem?_eraseIdx,
      if_neg (show ¬ (q.CurrentIndex - 1).toNat < i.toNat by omega)]
    congr 1
    omega
  · intro hieq
    rw [Queue.Remove_in_range q i (by omega)]
    constructor
    · rw [if_pos (show i ≤ q.CurrentIndex by omega)]
    · intro hloop
      simp only [Queue.Next, hloop]
      rw [if_pos (show i ≤ q.CurrentIndex by omega),
        List.length_eraseIdx, if_pos (show i.toNat < q.Tracks.length by omega)]
      by_cases hone : q.Tracks.length - 1 = 0
      · rw [if_pos hone]
        have : q.Tracks.length ≤ (q.CurrentIndex + 1).toNat := by omega
        rw [List.get?_eq_getElem?, List.getElem?_eq_none this]
      · rw [if_neg hone]
        rw [if_neg (by simp)]
        by_cases hlast : q.CurrentIndex = (q.Tracks.length : Int) - 1
        · rw [if_pos (by omega)]
          have : q.Tracks.length ≤ (q.CurrentIndex + 1).toNat := by omega
          rw [List.get?_eq_getElem?, List.getElem?_eq_none this]
        · rw [if_neg (by omega)]
          simp only [List.get?_eq_getElem?]
          rw [List.getElem?_eraseIdx,
            if_neg (show ¬ (q.CurrentIndex - 1 + 1).toNat < i.toNat by omega)]
          congr 1
          omega

/-- Witness for `Queue_Remove_cursor_adjustment` on the concrete queue
[A, B, C] with B current, removing index 1 (the current track). -/
theorem Queue_Remove_cursor_adjustment_witness :
    ((0 : Int) ≤ 1 ∧
      0 ≤ ({ Tracks := [trackA, trackB, trackC], CurrentIndex := 1, Loop := false } : Queue).CurrentIndex) ∧
    (((1 : Int) < ({ Tracks := [trackA, trackB, trackC], CurrentIndex := 1, Loop := false } : Queue).CurrentIndex →
      ((({ Tracks := [trackA, trackB, trackC], CurrentIndex := 1, Loop := false } : Queue).Remove 1).2).Current =
        ({ Tracks := [trackA, trackB, trackC], CurrentIndex := 1, Loop := false } : Queue).Current) ∧
    ((1 : Int) = ({ Tracks := [trackA, trackB, trackC], CurrentIndex := 1, Loop := false } : Queue).CurrentIndex →
      ((({ Tracks := [trackA, trackB, trackC], CurrentIndex := 1, Loop := false } : Queue).Remove 1).2).CurrentIndex =
        ({ Tracks := [trackA, trackB, trackC], CurrentIndex := 1, Loop := false } : Queue).CurrentIndex - 1 ∧
      (({ Tracks := [trackA, trackB, trackC], CurrentIndex := 1, Loop := false } : Queue).Loop = false →
        (((({ Tracks := [trackA, trackB, trackC], CurrentIndex := 1, Loop := false } : Queue).Remove 1).2).Next).1 =
          ({ Tracks := [trackA, trackB, trackC], CurrentIndex := 1, Loop := false } : Queue).Tracks.get?
            (({ Tracks := [trackA, trackB, trackC], CurrentIndex := 1, Loop := false } : Queue).CurrentIndex + 1).toNat))) :=
  ⟨⟨by decide, by decide⟩,
    Queue_Remove_cursor_adjustment
      { Tracks := [trackA, trackB, trackC], CurrentIndex := 1, Loop := false } 1
      (by decide) (by decide) (by decide)⟩

theorem listSwap_perm (l : List Track) (i j : Nat) (hi : i < l.length) (hj : j < l.length) :
    (listSwap l i j).Perm l := by
  have h1 : listSwap l i j = (l.set i l[j]).set j l[i] := by
    unfold listSwap
    rw [List.getD_eq_getElem l default hj, List.getD_eq_getElem l default hi]
  rw [h1, List.perm_iff_count]
  intro b
  have hj2 : j < (l.set i l[j]).length := by
    rw [List.length_set]
    exact hj
  rw [List.count_set _ _ _ _ hj2, List.count_set _ _ _ _ hi]
  have hsj : (l.set i l[j])[j] = l[j] := by
    rw [List.getElem_set hj2]
    split <;> rfl
  rw [hsj]
  by_cases hbi : l[i] = b
  · have hc : 0 < List.count b l := List.count_pos_iff_mem.mpr (hbi ▸ List.getElem_mem hi)
    by_cases hbj : l[j] = b
    · rw [if_pos (beq_iff_eq.mpr hbi), if_pos (beq_iff_eq.mpr hbj)]
      omega
    · rw [if_pos (beq_iff_eq.mpr hbi), if_neg (fun hcon => hbj (beq_iff_eq.mp hcon))]
      omega
  · by_cases hbj : l[j] = b
    · have hc : 0 < List.count b l := List.count_pos_iff_mem.mpr (hbj ▸ List.getElem_mem hj)
      rw [if_neg (fun hcon => hbi (beq_iff_eq.mp hcon)), if_pos (beq_iff_eq.mpr hbj)]
      omega
    · rw [if_neg (fun hcon => hbi (beq_iff_eq.mp hcon)),
        if_neg (fun hcon => hbj (beq_iff_eq.mp hcon))]
      omega

theorem fyAux_perm (r : Nat → Nat) : ∀ (n : Nat) (l : List Track), n < l.length →
    (fyAux r n l).Perm l
  | 0, l, _ => by
    rw [fyAux]
  | n + 1, l, h => by
    rw [fyAux]
    have hlen : (listSwap l (n + 1) (r (n + 1) % (n + 1 + 1))).length = l.length := by
      unfold listSwap
      rw [List.length_set, List.length_set]
    have hmod : r (n + 1) % (n + 1 + 1) < l.length := by
      have := Nat.mod_lt (r (n + 1)) (show 0 < n + 1 + 1 by omega)
      omega
    exact (fyAux_perm r n _ (by omega)).trans (listSwap_perm l (n + 1) _ h hmod)

theorem shuffleGo_perm (r : Nat → Nat) (l : List Track) : (shuffleGo r l).Perm l := by
  unfold shuffleGo
  by_cases h : l.length = 0
  · rw [show l.length - 1 = 0 by omega, fyAux]
  · exact fyAux_perm r (l.length - 1) l (by omega)

/-- Counterexample to claim C8 as stated: shuffling a one-track queue is
not a successful no-op; `handleShuffle` returns the user error for every
queue of length ≤ 1, including length exactly 1. -/
theorem handleShuffle_len1_counterexample :
    handleShuffle (fun _ => 0) { Tracks := [trackA], CurrentIndex := 0, Loop := false } =
      Except.error "not enough tracks to shuffle" := by
  rfl

/-- Claim C8 (amended): on a queue of length ≤ 1 (length 0 or 1) the
shuffle command returns a user error; on a queue with at least two tracks
and a current track it succeeds, keeps the cursor and every track at or
before the cursor unchanged (in particular the current track), and
permutes exactly the suffix strictly after the cursor. -/
theorem handleShuffle_spec (r : Nat → Nat) (q : Queue) :
    (q.Tracks.length ≤ 1 →
      handleShuffle r q = Except.error "not enough tracks to shuffle") ∧
    (0 ≤ q.CurrentIndex → q.CurrentIndex < (q.Tracks.length : Int) → 2 ≤ q.Tracks.length →
      ∃ q2, handleShuffle r q = Except.ok q2 ∧
        q2.CurrentIndex = q.CurrentIndex ∧
        (∀ k : Nat, k ≤ q.CurrentIndex.toNat → q2.Tracks.get? k = q.Tracks.get? k) ∧
        q2.Current = q.Current ∧
        (q2.Tracks.drop (q.CurrentIndex.toNat + 1)).Perm
          (q.Tracks.drop (q.CurrentIndex.toNat + 1))) := by
  constructor
  · intro h1
    rw [handleShuffle, if_pos h1]
  · intro h0 hlen h2
    rw [handleShuffle, if_neg (by omega), if_pos h0]
    have htk : q.CurrentIndex.toNat + 1 ≤ q.Tracks.length := by omega
    have htake : (q.Tracks.take (q.CurrentIndex.toNat + 1)).length = q.CurrentIndex.toNat + 1 :=
      length_take_of_le _ _ htk
    have hperm := shuffleGo_perm r (q.Tracks.drop (q.CurrentIndex.toNat + 1))
    have hpre : ∀ k : Nat, k ≤ q.CurrentIndex.toNat →
        (q.Tracks.take (q.CurrentIndex.toNat + 1) ++
          shuffleGo r (q.Tracks.drop (q.CurrentIndex.toNat + 1))).get? k = q.Tracks.get? k := by
      intro k hk
      simp only [List.get?_eq_getElem?]
      rw [List.getElem?_append, if_pos (by omega), List.getElem?_take, if_pos (by omega)]
    refine ⟨_, rfl, rfl, hpre, ?_, ?_⟩
    · have hlen2 : (q.Tracks.take (q.CurrentIndex.toNat + 1) ++
          shuffleGo r (q.Tracks.drop (q.CurrentIndex.toNat + 1))).length = q.Tracks.length := by
        rw [List.length_append, htake, hperm.length_eq, List.length_drop]
        omega
      rw [Queue.Current_eq_get? q h0 hlen]
      simp only [Queue.Current]
      rw [if_neg (by rw [hlen2]; omega)]
      exact hpre q.CurrentIndex.toNat (le_refl _)
    · dsimp only
      rw [List.drop_left' htake]
      exact hperm

/-- Witness for `handleShuffle_spec` on the concrete queue [A, B, C] with
A current and the constant-zero random oracle. -/
theorem handleShuffle_spec_witness :
    ((0 : Int) ≤ ({ Tracks := [trackA, trackB, trackC], CurrentIndex := 0, Loop := false } : Queue).CurrentIndex ∧
      ({ Tracks := [trackA, trackB, trackC], CurrentIndex := 0, Loop := false } : Queue).CurrentIndex <
        (({ Tracks := [trackA, trackB, trackC], CurrentIndex := 0, Loop := false } : Queue).Tracks.length : Int) ∧
      2 ≤ ({ Tracks := [trackA, trackB, trackC], CurrentIndex := 0, Loop := false } : Queue).Tracks.length) ∧
    (∃ q2, handleShuffle (fun _ => 0)
        { Tracks := [trackA, trackB, trackC], CurrentIndex := 0, Loop := false } = Except.ok q2 ∧
      q2.CurrentIndex = ({ Tracks := [trackA, trackB, trackC], CurrentIndex := 0, Loop := false } : Queue).CurrentIndex ∧
      (∀ k : Nat, k ≤ ({ Tracks := [trackA, trackB, trackC], CurrentIndex := 0, Loop := false } : Queue).CurrentIndex.toNat →
        q2.Tracks.get? k =
          ({ Tracks := [trackA, trackB, trackC], CurrentIndex := 0, Loop := false } : Queue).Tracks.get? k) ∧
      q2.Current = ({ Tracks := [trackA, trackB, trackC], CurrentIndex := 0, Loop := false } : Queue).Current ∧
      (q2.Tracks.drop (({ Tracks := [trackA, trackB, trackC], CurrentIndex := 0, Loop := false } : Queue).CurrentIndex.toNat + 1)).Perm
        (({ Tracks := [trackA, trackB, trackC], CurrentIndex := 0, Loop := false } : Queue).Tracks.drop
          (({ Tracks := [trackA, trackB, trackC], CurrentIndex := 0, Loop := false } : Queue).CurrentIndex.toNat + 1))) :=
  ⟨⟨by decide, by decide, by decide⟩,
    (handleShuffle_spec (fun _ => 0)
        { Tracks := [trackA, trackB, trackC], CurrentIndex := 0, Loop := false }).2
      (by decide) (by decide) (by decide)⟩

/-- Claim C2: with a voice connection, no pause, and a current track
whose encoder construction fails, `Play` still returns a nil error (the
failure happens in the spawned goroutine), so the playLoop retry branch
is NOT taken; the goroutine merely clears `Playing` and never signals
`doneChan`. The retry-on-encoder-failure behaviour the spec describes is
unreachable. -/
theorem Play_encoder_failure_not_observed :
    ((playerF.Play).2.1 = none ∧
      playLoopRetryTaken ((playerF.Play).2.1) = false ∧
      (playerF.Play).2.2 = some trackF) ∧
    ((playTrackEncoderPhase envFail (playerF.Play).1 trackF).2.1 = true ∧
      (playTrackEncoderPhase envFail (playerF.Play).1 trackF).2.2 = false ∧
      (playTrackEncoderPhase envFail (playerF.Play).1 trackF).1.Playing = false) := by
  decide

/-- Counterexample to claim C5 as stated: on a live current track,
`Seek 5` succeeds (nil error) instead of failing. -/
theorem Seek_live_success_counterexample :
    playerLive.Queue.Current = some trackLive ∧
    trackLive.IsLive = true ∧
    (playerLive.Seek 5).2.1 = none := by
  decide

/-- Claim C5 (amended): `Seek` errors iff there is no current track, the
position is negative, or the current track is non-live and the position
exceeds its duration; for a live current track every non-negative
position is accepted (the duration bound is skipped), so seek on a live
track does NOT fail. -/
theorem GuildPlayer_Seek_spec (p : GuildPlayer) (position : Int) :
    (p.Queue.Current = none →
      (p.Seek position).2.1 = some "no track currently playing") ∧
    (∀ t, p.Queue.Current = some t →
      ((position < 0 ∨ (t.IsLive = false ∧ t.Duration < position)) ↔
        ((p.Seek position).2.1).isSome = true) ∧
      (0 ≤ position → t.IsLive = true → (p.Seek position).2.1 = none)) := by
  constructor
  · intro h
    simp only [GuildPlayer.Seek, GuildPlayer.Stop]
    rw [h]
  · intro t ht
    have hcond : ¬(position < 0 ∨ (t.IsLive = false ∧ t.Duration < position)) →
        (0 ≤ position) ∨ True := fun _ => Or.inr trivial
    constructor
    · simp only [GuildPlayer.Seek, GuildPlayer.Stop]
      rw [ht]
      dsimp only
      by_cases hc : position < 0 ∨ (t.IsLive = false ∧ t.Duration < position)
      · rw [if_pos hc]
        simp [hc]
      · rw [if_neg hc]
        simp [hc]
    · intro hpos hlive
      simp only [GuildPlayer.Seek, GuildPlayer.Stop]
      rw [ht]
      dsimp only
      rw [if_neg ?_]
      rintro (hneg | ⟨hfalse, _⟩)
      · omega
      · rw [hlive] at hfalse
        cases hfalse

/-- Witness for `GuildPlayer_Seek_spec` on the concrete live-track player
at position 5. -/
theorem GuildPlayer_Seek_spec_witness :
    (playerLive.Queue.Current = some trackLive) ∧
    ((((5 : Int) < 0 ∨ (trackLive.IsLive = false ∧ trackLive.Duration < 5)) ↔
        ((playerLive.Seek 5).2.1).isSome = true) ∧
      ((0 : Int) ≤ 5 → trackLive.IsLive = true → (playerLive.Seek 5).2.1 = none)) :=
  ⟨by decide, (GuildPlayer_Seek_spec playerLive 5).2 trackLive (by decide)⟩

/-! Size bookkeeping lemmas for the cache. -/

theorem entriesSize_nil : entriesSize [] = 0 := rfl

theorem entriesSize_cons (e : String × CacheEntry) (l : List (String × CacheEntry)) :
    entriesSize (e :: l) = e.2.Size + entriesSize l := by
  simp [entriesSize]

theorem entriesSize_append (a b : List (String × CacheEntry)) :
    entriesSize (a ++ b) = entriesSize a + entriesSize b := by
  simp [entriesSize]

theorem entriesSize_evictLoop (t : Nat) (f : Nat) (l : List (String × CacheEntry)) :
    entriesSize (evictLoop t f l) ≤ f + entriesSize l - t := by
  induction l generalizing f with
  | nil =>
    rw [evictLoop]
    exact Nat.zero_le _
  | cons e rest ih =>
    rw [evictLoop]
    by_cases h : t ≤ f
    · rw [if_pos h, entriesSize_cons]
      have := entriesSize_cons e rest
      omega
    · rw [if_neg h]
      have h1 := ih (f + e.2.Size)
      have h2 := entriesSize_cons e rest
      omega

theorem entriesSize_insertByLastAccessed (e : String × CacheEntry)
    (l : List (String × CacheEntry)) :
    entriesSize (insertByLastAccessed e l) = e.2.Size + entriesSize l := by
  induction l with
  | nil => rw [insertByLastAccessed, entriesSize_cons]
  | cons f rest ih =>
    rw [insertByLastAccessed]
    by_cases h : e.2.LastAccessed < f.2.LastAccessed
    · rw [if_pos h, entriesSize_cons]
    · rw [if_neg h, entriesSize_cons, ih, entriesSize_cons]
      omega

theorem entriesSize_sortByLastAccessed (l : List (String × CacheEntry)) :
    entriesSize (sortByLastAccessed l) = entriesSize l := by
  induction l with
  | nil => rfl
  | cons e rest ih =>
    rw [sortByLastAccessed, entriesSize_insertByLastAccessed, ih, entriesSize_cons]

theorem Cache_evict_size (c : Cache) (t : Nat) :
    (c.evict t).getCurrentSize ≤ c.getCurrentSize - t := by
  show entriesSize (evictLoop t 0 (sortByLastAccessed c.entries)) ≤ entriesSize c.entries - t
  have h := entriesSize_evictLoop t 0 (sortByLastAccessed c.entries)
  rw [entriesSize_sortByLastAccessed] at h
  omega

theorem entriesSize_filter_le (p : (String × CacheEntry) → Bool)
    (l : List (String × CacheEntry)) :
    entriesSize (l.filter p) ≤ entriesSize l := by
  induction l with
  | nil => exact Nat.le_refl _
  | cons e rest ih =>
    rw [List.filter_cons]
    by_cases h : p e = true
    · rw [if_pos h, entriesSize_cons, entriesSize_cons]
      omega
    · rw [if_neg h, entriesSize_cons]
      omega

theorem entriesSize_mapSet_le (entries : List (String × CacheEntry)) (key : String)
    (e : CacheEntry) :
    entriesSize (mapSet entries key e) ≤ entriesSize entries + e.Size := by
  rw [mapSet, entriesSize_append]
  have h1 := entriesSize_filter_le (fun kv => kv.1 != key) entries
  have h2 : entriesSize [(key, e)] = e.Size + 0 := entriesSize_cons (key, e) []
  omega

theorem entriesSize_mapSet_found (entries : List (String × CacheEntry)) (key : String)
    (kv : String × CacheEntry) (e : CacheEntry)
    (hmem : kv ∈ entries) (hkey : (kv.1 == key) = true) (hsz : e.Size = kv.2.Size) :
    entriesSize (mapSet entries key e) ≤ entriesSize entries := by
  induction entries with
  | nil => cases hmem
  | cons f rest ih =>
    rw [mapSet, List.filter_cons]
    rcases List.mem_cons.mp hmem with heq | hmem2
    · have hf : ((f.1 != key) = true) = False := by
        rw [heq] at hkey
        simp [bne, hkey]
      rw [if_neg (by rw [hf]; exact id)]
      have h1 := entriesSize_filter_le (fun x => x.1 != key) rest
      have h2 := entriesSize_append (rest.filter (fun x => x.1 != key)) [(key, e)]
      have h3 : entriesSize [(key, e)] = e.Size + 0 := entriesSize_cons (key, e) []
      have h4 := entriesSize_cons f rest
      have h5 : e.Size = f.2.Size := by rw [hsz, heq]
      omega
    · have hrec := ih hmem2
      rw [mapSet] at hrec
      by_cases hf : (f.1 != key) = true
      · rw [if_pos hf]
        have h4 := entriesSize_cons f rest
        have h5 := entriesSize_cons f ((rest.filter (fun x => x.1 != key)) ++ [(key, e)])
        have h6 : (f :: rest.filter (fun x => x.1 != key)) ++ [(key, e)] =
            f :: ((rest.filter (fun x => x.1 != key)) ++ [(key, e)]) := rfl
        rw [h6, h5]
        omega
      · rw [if_neg hf]
        have h4 := entriesSize_cons f rest
        omega

theorem Cache_Get_size (c : Cache) (key : String) (now : Nat) :
    ((c.Get key now).2).getCurrentSize ≤ c.getCurrentSize ∧
    ((c.Get key now).2).maxSize = c.maxSize := by
  cases hfind : c.entries.find? (fun kv => kv.1 == key) with
  | none =>
    refine ⟨?_, ?_⟩
    · show ((c.Get key now).2).getCurrentSize ≤ c.getCurrentSize
      rw [Cache.Get, hfind]
    · show ((c.Get key now).2).maxSize = c.maxSize
      rw [Cache.Get, hfind]
  | some kv =>
    refine ⟨?_, ?_⟩
    · show ((c.Get key now).2).getCurrentSize ≤ c.getCurrentSize
      rw [Cache.Get, hfind]
      have hmem := List.mem_of_find?_eq_some hfind
      have hkey := List.find?_some hfind
      exact entriesSize_mapSet_found c.entries key kv { kv.2 with LastAccessed := now }
        hmem hkey rfl
    · show ((c.Get key now).2).maxSize = c.maxSize
      rw [Cache.Get, hfind]

theorem Cache_Get_none (c : Cache) (key : String) (now : Nat)
    (h : (c.Get key now).1 = none) : (c.Get key now).2 = c := by
  cases hfind : c.entries.find? (fun kv => kv.1 == key) with
  | none => simp only [Cache.Get, hfind]
  | some kv =>
    rw [Cache.Get, hfind] at h
    cases h

/-- Unfolding equation for `Cache.GetOrCreate` on a hit. -/
theorem Cache_GetOrCreate_hit (c : Cache) (key : String) (size now : Nat) (createOk : Bool)
    (path : String) (c1 : Cache) (hget : c.Get key now = (some path, c1)) :
    c.GetOrCreate key size now createOk = (c1, none) := by
  unfold Cache.GetOrCreate
  rw [hget]

/-- Unfolding equation for `Cache.GetOrCreate` on a miss. -/
theorem Cache_GetOrCreate_miss (c : Cache) (key : String) (size now : Nat) (createOk : Bool)
    (c1 : Cache) (hget : c.Get key now = (none, c1)) :
    c.GetOrCreate key size now createOk =
      (if createOk = false then (c1, some "failed to create cached file")
       else if c1.entries.any (fun kv => kv.1 == key) then (c1, none)
       else
         let currentSize := c1.getCurrentSize
         let c2 := if c1.maxSize < currentSize + size then
             c1.evict (currentSize + size - c1.maxSize)
           else c1
         let e : CacheEntry := { Path := key, Size := size, LastAccessed := now, URL := "" }
         ({ c2 with entries := mapSet c2.entries key e }, none)) := by
  unfold Cache.GetOrCreate
  rw [hget]

theorem Cache_runOp_invariant (c : Cache) (op : CacheOp)
    (hinv : c.getCurrentSize ≤ c.maxSize) (hop : op.sizeBound ≤ c.maxSize) :
    (c.runOp op).getCurrentSize ≤ c.maxSize ∧ (c.runOp op).maxSize = c.maxSize := by
  cases op with
  | clear => exact ⟨Nat.zero_le _, rfl⟩
  | set key size now copyOk =>
    have hsz : size ≤ c.maxSize := hop
    simp only [Cache.runOp, Cache.Set]
    by_cases hev : c.maxSize < c.getCurrentSize + size
    · rw [if_pos hev]
      have hsmall := Cache_evict_size c (c.getCurrentSize + size - c.maxSize)
      by_cases hcopy : copyOk = false
      · rw [if_pos hcopy]
        refine ⟨?_, rfl⟩
        show (c.evict (c.getCurrentSize + size - c.maxSize)).getCurrentSize ≤ c.maxSize
        omega
      · rw [if_neg hcopy]
        refine ⟨?_, rfl⟩
        show entriesSize (mapSet (c.evict (c.getCurrentSize + size - c.maxSize)).entries key
          { Path := key, Size := size, LastAccessed := now, URL := "" }) ≤ c.maxSize
        have hmap := entriesSize_mapSet_le
          (c.evict (c.getCurrentSize + size - c.maxSize)).entries key
          { Path := key, Size := size, LastAccessed := now, URL := "" }
        have heq : entriesSize (c.evict (c.getCurrentSize + size - c.maxSize)).entries =
            (c.evict (c.getCurrentSize + size - c.maxSize)).getCurrentSize := rfl
        have hfs : ({ Path := key, Size := size, LastAccessed := now, URL := "" } :
            CacheEntry).Size = size := rfl
        omega
    · rw [if_neg hev]
      by_cases hcopy : copyOk = false
      · rw [if_pos hcopy]
        exact ⟨hinv, rfl⟩
      · rw [if_neg hcopy]
        refine ⟨?_, rfl⟩
        show entriesSize (mapSet c.entries key
          { Path := key, Size := size, LastAccessed := now, URL := "" }) ≤ c.maxSize
        have hmap := entriesSize_mapSet_le c.entries key
          { Path := key, Size := size, LastAccessed := now, URL := "" }
        have heq : entriesSize c.entries = c.getCurrentSize := rfl
        have hfs : ({ Path := key, Size := size, LastAccessed := now, URL := "" } :
            CacheEntry).Size = size := rfl
        omega
  | getOrCreate key size now createOk =>
    have hsz : size ≤ c.maxSize := hop
    show ((c.GetOrCreate key size now createOk).1).getCurrentSize ≤ c.maxSize ∧
      ((c.GetOrCreate key size now createOk).1).maxSize = c.maxSize
    rcases hget : c.Get key now with ⟨o, c1⟩
    cases o with
    | some path =>
      rw [Cache_GetOrCreate_hit c key size now createOk path c1 hget]
      have hgs := Cache_Get_size c key now
      rw [hget] at hgs
      exact ⟨Nat.le_trans hgs.1 hinv, hgs.2⟩
    | none =>
      have hc1 : c1 = c := by
        have hn := Cache_Get_none c key now (by rw [hget])
        rw [hget] at hn
        exact hn
      rw [Cache_GetOrCreate_miss c key size now createOk c1 hget, hc1]
      by_cases hcr : createOk = false
      · rw [if_pos hcr]
        exact ⟨hinv, rfl⟩
      · rw [if_neg hcr]
        by_cases hany : c.entries.any (fun kv => kv.1 == key) = true
        · rw [if_pos hany]
          exact ⟨hinv, rfl⟩
        · rw [if_neg hany]
          have hfs : ({ Path := key, Size := size, LastAccessed := now, URL := "" } :
              CacheEntry).Size = size := rfl
          constructor
          · show entriesSize (mapSet
              (if c.maxSize < c.getCurrentSize + size then
                c.evict (c.getCurrentSize + size - c.maxSize)
              else c).entries key
              { Path := key, Size := size, LastAccessed := now, URL := "" }) ≤ c.maxSize
            by_cases hev : c.maxSize < c.getCurrentSize + size
            · rw [if_pos hev]
              have hsmall := Cache_evict_size c (c.getCurrentSize + size - c.maxSize)
              have hmap := entriesSize_mapSet_le
                (c.evict (c.getCurrentSize + size - c.maxSize)).entries key
                { Path := key, Size := size, LastAccessed := now, URL := "" }
              have heq : entriesSize (c.evict (c.getCurrentSize + size - c.maxSize)).entries =
                  (c.evict (c.getCurrentSize + size - c.maxSize)).getCurrentSize := rfl
              omega
            · rw [if_neg hev]
              have hmap := entriesSize_mapSet_le c.entries key
                { Path := key, Size := size, LastAccessed := now, URL := "" }
              have heq : entriesSize c.entries = c.getCurrentSize := rfl
              omega
          · show (if c.maxSize < c.getCurrentSize + size then
                c.evict (c.getCurrentSize + size - c.maxSize)
              else c).maxSize = c.maxSize
            by_cases hev : c.maxSize < c.getCurrentSize + size
            · rw [if_pos hev]
              exact rfl
            · rw [if_neg hev]

theorem Cache_runOps_invariant (c : Cache) (ops : List CacheOp)
    (hinv : c.getCurrentSize ≤ c.maxSize)
    (hops : ∀ op ∈ ops, op.sizeBound ≤ c.maxSize) :
    (c.runOps ops).getCurrentSize ≤ c.maxSize ∧ (c.runOps ops).maxSize = c.maxSize := by
  induction ops generalizing c with
  | nil => exact ⟨hinv, rfl⟩
  | cons op rest ih =>
    have hstep := Cache_runOp_invariant c op hinv (hops op (List.mem_cons_self op rest))
    have hrec := ih (c.runOp op)
      (by rw [hstep.2]; exact hstep.1)
      (by intro o ho; rw [hstep.2]; exact hops o (List.mem_cons_of_mem _ ho))
    have heq : c.runOps (op :: rest) = (c.runOp op).runOps rest := rfl
    constructor
    · rw [heq]
      have h1 := hrec.1
      rw [hstep.2] at h1
      exact h1
    · rw [heq]
      have h2 := hrec.2
      rw [hstep.2] at h2
      exact h2

/-- Counterexample to claim C1 as stated: a fresh cache with limit 10 and
a single `GetOrCreate` whose producer writes an 11-byte file ends with
total size 11 > 10 — the oversized file is registered after eviction has
emptied the cache. -/
theorem Cache_oversize_counterexample :
    ((NewCache 10).runOps [CacheOp.getOrCreate "k" 11 0 true]).getCurrentSize = 11 ∧
    ¬ ((NewCache 10).runOps [CacheOp.getOrCreate "k" 11 0 true]).getCurrentSize ≤ 10 := by
  decide

/-- Claim C1 (amended): for every sequence of mutating cache operations
on a freshly constructed cache with limit max_size, the total registered
size stays ≤ max_size PROVIDED every registered file's size is itself
≤ max_size; a single producer whose file exceeds max_size breaks the
bound (see the counterexample). -/
theorem Cache_size_invariant (maxSize : Nat) (ops : List CacheOp)
    (hops : ∀ op ∈ ops, op.sizeBound ≤ maxSize) :
    ((NewCache maxSize).runOps ops).getCurrentSize ≤ maxSize :=
  (Cache_runOps_invariant (NewCache maxSize) ops (Nat.zero_le _) hops).1

/-- Witness for `Cache_size_invariant` on a concrete operation sequence
that forces eviction. -/
theorem Cache_size_invariant_witness :
    (∀ op ∈ [CacheOp.getOrCreate "k" 7 0 true, CacheOp.set "k2" 8 1 true,
        CacheOp.getOrCreate "k3" 9 2 true, CacheOp.clear], op.sizeBound ≤ 10) ∧
    ((NewCache 10).runOps [CacheOp.getOrCreate "k" 7 0 true, CacheOp.set "k2" 8 1 true,
        CacheOp.getOrCreate "k3" 9 2 true, CacheOp.clear]).getCurrentSize ≤ 10 :=
  ⟨by decide,
    Cache_size_invariant 10 [CacheOp.getOrCreate "k" 7 0 true, CacheOp.set "k2" 8 1 true,
      CacheOp.getOrCreate "k3" 9 2 true, CacheOp.clear] (by decide)⟩

/-- Counterexample to claim C6 as stated: in
[video-with-audio (url "b"), audio-only with abr 0 (url "a")] an
audio-only format with audio and a non-empty URL exists, yet the
function returns the URL of the video format: an abr of 0 never beats
the initial best bitrate 0, so the audio-only format is skipped and the
fallback returns the first format with audio. -/
theorem extractBestAudioURL_counterexample :
    (fmtAudioZero.VideoCodec = "none" ∧ fmtAudioZero.AudioCodec ≠ "none" ∧
      fmtAudioZero.URL ≠ "") ∧
    extractBestAudioURL [fmtVideoAudio, fmtAudioZero] = fmtVideoAudio.URL ∧
    fmtVideoAudio.VideoCodec ≠ "none" ∧
    extractBestAudioURL [fmtVideoAudio, fmtAudioZero] ≠ fmtAudioZero.URL := by
  decide

/-- Invariant of the selection fold: either nothing was ever selected
(accumulator still ("", 0)) and no candidate was seen, or the
accumulator holds the URL and bitrate of a candidate whose bitrate is
maximal among the candidates seen. -/
theorem bestAudioFold_invariant (formats : List Format) :
    (formats.foldl bestAudioFold ("", 0) = ("", 0) ∧
      ∀ f ∈ formats, ¬ f.audioCandidate) ∨
    (∃ f ∈ formats, f.audioCandidate ∧
      formats.foldl bestAudioFold ("", 0) = (f.URL, f.ABR) ∧
      ∀ g ∈ formats, g.audioCandidate → g.ABR ≤ f.ABR) := by
  induction formats using List.reverseRecOn with
  | nil =>
    left
    exact ⟨rfl, by simp⟩
  | append_singleton l x ih =>
    rw [List.foldl_append, List.foldl_cons, List.foldl_nil]
    rcases ih with ⟨hacc, hnone⟩ | ⟨f, hfmem, hfcand, hacc, hbound⟩
    · rw [hacc]
      by_cases hskip : x.AudioCodec = "none" ∨ x.AudioCodec = ""
      · left
        rw [bestAudioFold, if_pos hskip]
        refine ⟨rfl, ?_⟩
        intro g hg
        rcases List.mem_append.mp hg with hgl | hgx
        · exact hnone g hgl
        · rw [List.mem_singleton.mp hgx]
          intro hcand
          exact absurd hcand.1.1 (by tauto)
      · by_cases hsel : x.audioOnly ∧ x.ABR > (0 : ℚ) ∧ x.URL ≠ ""
        · right
          refine ⟨x, List.mem_append_right _ (List.mem_singleton_self x), ?_, ?_, ?_⟩
          · exact ⟨⟨fun h => hskip (Or.inl h), fun h => hskip (Or.inr h)⟩,
              hsel.1, hsel.2.2, hsel.2.1⟩
          · rw [bestAudioFold, if_neg hskip]
            rw [if_pos hsel]
          · intro g hg hgcand
            rcases List.mem_append.mp hg with hgl | hgx
            · exact absurd hgcand (hnone g hgl)
            · rw [List.mem_singleton.mp hgx]
        · left
          rw [bestAudioFold, if_neg hskip, if_neg hsel]
          refine ⟨rfl, ?_⟩
          intro g hg
          rcases List.mem_append.mp hg with hgl | hgx
          · exact hnone g hgl
          · rw [List.mem_singleton.mp hgx]
            intro hcand
            exact hsel ⟨hcand.2.1, hcand.2.2.2, hcand.2.2.1⟩
    · rw [hacc]
      by_cases hskip : x.AudioCodec = "none" ∨ x.AudioCodec = ""
      · right
        refine ⟨f, List.mem_append_left _ hfmem, hfcand, ?_, ?_⟩
        · rw [bestAudioFold, if_pos hskip]
        · intro g hg hgcand
          rcases List.mem_append.mp hg with hgl | hgx
          · exact hbound g hgl hgcand
          · rw [List.mem_singleton.mp hgx] at hgcand
            exact absurd hgcand.1.1 (by tauto)
      · by_cases hsel : x.audioOnly ∧ x.ABR > f.ABR ∧ x.URL ≠ ""
        · right
          refine ⟨x, List.mem_append_right _ (List.mem_singleton_self x), ?_, ?_, ?_⟩
          · refine ⟨⟨fun h => hskip (Or.inl h), fun h => hskip (Or.inr h)⟩,
              hsel.1, hsel.2.2, ?_⟩
            exact lt_trans hfcand.2.2.2 hsel.2.1
          · rw [bestAudioFold, if_neg hskip]
            rw [if_pos hsel]
          · intro g hg hgcand
            rcases List.mem_append.mp hg with hgl | hgx
            · exact le_trans (hbound g hgl hgcand) (le_of_lt hsel.2.1)
            · rw [List.mem_singleton.mp hgx]
        · right
          refine ⟨f, List.mem_append_left _ hfmem, hfcand, ?_, ?_⟩
          · rw [bestAudioFold, if_neg hskip, if_neg hsel]
          · intro g hg hgcand
            rcases List.mem_append.mp hg with hgl | hgx
            · exact hbound g hgl hgcand
            · rw [List.mem_singleton.mp hgx] at hgcand ⊢
              by_contra hgt
              exact hsel ⟨hgcand.2.1, lt_of_not_le hgt, hgcand.2.2.1⟩

/-- Claim C6 (amended): when at least one audio-only format with audio,
a non-empty URL and a strictly positive abr exists, the function returns
the URL of such a format with the highest abr; when no such format
exists it falls back to the first format with audio and a non-empty URL;
and it returns the empty string iff no format has audio and a non-empty
URL. An audio-only format with abr 0 (or unset) is never selected by
the first loop (see the counterexample). -/
theorem extractBestAudioURL_spec (formats : List Format) :
    ((∃ f ∈ formats, f.audioCandidate) →
      ∃ f ∈ formats, f.audioCandidate ∧ extractBestAudioURL formats = f.URL ∧
        ∀ g ∈ formats, g.audioCandidate → g.ABR ≤ f.ABR) ∧
    ((¬ ∃ f ∈ formats, f.audioCandidate) →
      extractBestAudioURL formats = fallbackAudioURL formats "") ∧
    (extractBestAudioURL formats = "" ↔
      ∀ f ∈ formats, ¬(f.hasAudio ∧ f.URL ≠ "")) := by
  have hinv := bestAudioFold_invariant formats
  have hmain : (∃ f ∈ formats, f.audioCandidate ∧ extractBestAudioURL formats = f.URL ∧
        ∀ g ∈ formats, g.audioCandidate → g.ABR ≤ f.ABR) ∨
      ((∀ f ∈ formats, ¬ f.audioCandidate) ∧
        extractBestAudioURL formats = fallbackAudioURL formats "") := by
    rcases hinv with ⟨hacc, hnone⟩ | ⟨f, hfmem, hfcand, hacc, hbound⟩
    · right
      refine ⟨hnone, ?_⟩
      rw [extractBestAudioURL]
      rw [hacc]
      rfl
    · left
      refine ⟨f, hfmem, hfcand, ?_, hbound⟩
      rw [extractBestAudioURL, hacc]
      exact if_neg hfcand.2.2.1
  refine ⟨?_, ?_, ?_⟩
  · intro hex
    rcases hmain with h | ⟨hnone, _⟩
    · exact h
    · rcases hex with ⟨f, hf, hfc⟩
      exact absurd hfc (hnone f hf)
  · intro hnex
    rcases hmain with ⟨f, hf, hfc, _⟩ | ⟨_, heq⟩
    · exact absurd ⟨f, hf, hfc⟩ hnex
    · exact heq
  · rcases hmain with ⟨f, hf, hfc, heq, _⟩ | ⟨hnone, heq⟩
    · rw [heq]
      constructor
      · intro hurl
        exact absurd hurl hfc.2.2.1
      · intro hall
        exact absurd ⟨hfc.1, hfc.2.2.1⟩ (hall f hf)
    · rw [heq, fallbackAudioURL]
      cases hfind : formats.find?
          (fun f => f.AudioCodec != "none" && f.AudioCodec != "" && f.URL != "") with
      | none =>
        constructor
        · intro _ f hf hcond
          have hall := List.find?_eq_none.mp hfind f hf
          simp only [Bool.and_eq_true, bne_iff_ne] at hall
          exact hall ⟨⟨hcond.1.1, hcond.1.2⟩, hcond.2⟩
        · intro _
          rfl
      | some g =>
        have hg := List.find?_some hfind
        have hgmem := List.mem_of_find?_eq_some hfind
        simp only [Bool.and_eq_true, bne_iff_ne] at hg
        constructor
        · intro hurl
          exact absurd hurl hg.2
        · intro hall
          exact absurd ⟨⟨hg.1.1, hg.1.2⟩, hg.2⟩ (hall g hgmem)

/-- Witness for `extractBestAudioURL_spec`: the candidate branch on a
list with a positive-abr audio-only format, and the fallback branch on a
list with only a video format. -/
theorem extractBestAudioURL_spec_witness :
    ((∃ f ∈ [fmtVideoAudio, fmtAudioGood], f.audioCandidate) ∧
      (∃ f ∈ [fmtVideoAudio, fmtAudioGood], f.audioCandidate ∧
        extractBestAudioURL [fmtVideoAudio, fmtAudioGood] = f.URL ∧
        ∀ g ∈ [fmtVideoAudio, fmtAudioGood], g.audioCandidate → g.ABR ≤ f.ABR)) ∧
    ((¬ ∃ f ∈ [fmtVideoAudio], f.audioCandidate) ∧
      extractBestAudioURL [fmtVideoAudio] = fallbackAudioURL [fmtVideoAudio] "") :=
  ⟨⟨by decide, (extractBestAudioURL_spec [fmtVideoAudio, fmtAudioGood]).1 (by decide)⟩,
    ⟨by decide, (extractBestAudioURL_spec [fmtVideoAudio]).2.1 (by decide)⟩⟩

end GoBard

